import Mathlib

/-!
# Verification of the Trybo trajectory-parsing core

Shallow embedding of `src/core/base_parser.py` and `src/core/helpers.py`
(class `BaseParser` and its worker helper), together with proofs of the
specified properties of the indexer, decoder, bulk loader, accessors,
analysis-channel map, spatial grouping and decode cache.

Modelling conventions:
* The memory-mapped dump file is a list of `FileItem`s.  Offsets returned by
  `mmap.find` / `mmap.tell` become item indices; one `FileItem` stands for the
  byte span of the corresponding line group (a `TIMESTEP` marker line together
  with its id line, an `ATOMS` header line, any other `ITEM:` line, or a run of
  numeric data lines).  Searches and byte ranges are expressed in these units.
* `int(line.strip())` on the timestep-id line is modelled by storing the parse
  result directly: `tsMarker (some t)` for a numeric line, `tsMarker none` for
  a line whose parse raises `ValueError`.
* Numeric tokens are rationals (`ℚ`); `np.fromstring(seg, sep=' ')` becomes
  the concatenation of the token lists of the data items inside the range.
* A numpy array of shape `(r, c)` is a `List (List ℚ)` of `r` rows of width
  `c`; `flat.reshape(-1, n_cols)` succeeds exactly when `n_cols` is positive
  and divides the token count, as in numpy.
* Python exceptions become an `Except PErr` result.
-/

namespace Trybo

/-- Errors raised by the parsing core (the `ValueError`s of `base_parser.py`
and the `IndexError` of Python list indexing). -/
inductive PErr where
  /-- Message `'No headers were found in the file. Check the format.'` -/
  | noHeaders : PErr
  /-- Message `'Timestep {t} not found in file.'` -/
  | timestepNotFound (t : Int) : PErr
  /-- Message `'Data reshape error ...: {size} values for {ncols} columns.'` -/
  | reshapeMismatch (ncols : Nat) (size : Nat) : PErr
  /-- Python `IndexError` from indexing `self._timesteps`. -/
  | indexOutOfRange : PErr
deriving DecidableEq, Repr

/-- One structural item of the dump file, in file order. -/
inductive FileItem where
  /-- An `ITEM: TIMESTEP` marker line together with the id line that follows
  it; the field is the result of `int(timestep_line.strip())` (`none` when the
  parse raises `ValueError`). -/
  | tsMarker (tsid : Option Int) : FileItem
  /-- An `ITEM: ATOMS ...` header line; the field holds the column-name
  tokens after the two marker words (`atom_header.split()[2:]`). -/
  | atomsMarker (headers : List String) : FileItem
  /-- Any other `ITEM: ...` marker line. -/
  | otherMarker : FileItem
  /-- A run of numeric data lines; the field is the whitespace-separated
  token sequence those lines contain. -/
  | dataChunk (tokens : List ℚ) : FileItem
deriving DecidableEq, Repr

/-- Does this item start with the bytes `ITEM: TIMESTEP`? -/
def isTS : FileItem → Bool
  | .tsMarker _ => true
  | _ => false

/-- Does this item start with the bytes `ITEM: ATOMS`? -/
def isAtoms : FileItem → Bool
  | .atomsMarker _ => true
  | _ => false

/-- Does this item start with the bytes `ITEM:` (any marker)? -/
def isMarker : FileItem → Bool
  | .dataChunk _ => false
  | _ => true

/-- Column tokens of an `ITEM: ATOMS` line (empty for other items). -/
def itemHeaders : FileItem → List String
  | .atomsMarker hs => hs
  | _ => []

/-- Token content of a data item (empty for marker items). -/
def itemTokens : FileItem → List ℚ
  | .dataChunk ts => ts
  | _ => []

/-- Scan a list for the first index `≥ k` (counting from `k` at the head)
whose element satisfies `p`; auxiliary for `findFrom`. -/
def findIdxAux (p : FileItem → Bool) : List FileItem → Nat → Option Nat
  | [], _ => none
  | x :: xs, k => if p x then some k else findIdxAux p xs (k + 1)

/-- Model of `mmap.find(token, offset)`: position of the first item at index
`≥ offset` satisfying `p`, or `none` (mmap returns `-1`). -/
def findFrom (p : FileItem → Bool) (file : List FileItem) (offset : Nat) : Option Nat :=
  findIdxAux p (file.drop offset) offset

/-- The mutable state built by `BaseParser._index_file`: `_timesteps`,
`_timestep_atom_info` (a Python dict, kept as an insertion-ordered
association list) and `_headers`. -/
structure ScanState where
  timesteps : List Int
  info : List (Int × Nat × Nat)
  headers : List String
deriving DecidableEq, Repr

/-- Python `dict` assignment `d[k] = v`: replace the value in place if the
key is present (keeping its position), else append the pair at the end. -/
def dictInsert (k : Int) (v : Nat × Nat) : List (Int × Nat × Nat) → List (Int × Nat × Nat)
  | [] => [(k, v)]
  | e :: rest => if e.1 = k then (k, v) :: rest else e :: dictInsert k v rest

/-- Python `dict` lookup `d[k]` / `k in d` for the timestep index. -/
def dictGet (k : Int) : List (Int × Nat × Nat) → Option (Nat × Nat)
  | [] => none
  | e :: rest => if e.1 = k then some e.2 else dictGet k rest

/-- Keys of the timestep index, in insertion order. -/
def infoKeys (info : List (Int × Nat × Nat)) : List Int :=
  info.map (fun e => e.1)

/-- Byte ranges of the timestep index, in insertion order. -/
def infoRanges (info : List (Int × Nat × Nat)) : List (Nat × Nat) :=
  info.map (fun e => e.2)

/-- The `while True` loop of `BaseParser._index_file`.  `fuel` bounds the
number of iterations; since `offset` strictly increases by at least two per
iteration and every break is modelled, `file.length + 1` fuel always runs the
loop to its Python termination point (see `scanLoop_fuel_stable`).

Loop body, in source order: find the next `ITEM: TIMESTEP` (break when
absent); parse the following id line (silently break on `ValueError`);
append the id to `_timesteps`; find the next `ITEM: ATOMS` (break when
absent); capture `_headers` from it if still empty; record
`(data_start, data_end)` where `data_end` is the next `ITEM:` position or
end of file; continue from `data_end`. -/
def scanLoop (file : List FileItem) : Nat → ScanState → Nat → ScanState
  | 0, st, _ => st
  | fuel + 1, st, offset =>
    match findFrom isTS file offset with
    | none => st
    | some pts =>
      match file.getD pts .otherMarker with
      | .tsMarker none => st
      | .tsMarker (some t) =>
        let st1 : ScanState := { st with timesteps := st.timesteps ++ [t] }
        match findFrom isAtoms file (pts + 1) with
        | none => st1
        | some pa =>
          let st2 : ScanState :=
            { st1 with
              headers :=
                if st1.headers = [] then itemHeaders (file.getD pa .otherMarker)
                else st1.headers }
          let dataStart := pa + 1
          let dataEnd := (findFrom isMarker file dataStart).getD file.length
          let st3 : ScanState := { st2 with info := dictInsert t (dataStart, dataEnd) st2.info }
          scanLoop file fuel st3 dataEnd
      | _ => st

/-- Model of `BaseParser._index_file`: run the scan loop from offset 0 on empty state;
raise `ValueError('No headers were found ...')` when no `ITEM: ATOMS` header
line was ever captured. -/
def indexFile (file : List FileItem) : Except PErr ScanState :=
  let st := scanLoop file (file.length + 1) ⟨[], [], []⟩ 0
  if st.headers = [] then .error .noHeaders else .ok st

/-- Model of `self._mm[start:end]` followed by `np.fromstring(segment, sep=' ')`:
the numeric tokens contained in the item range `[s, e)`.  (The ranges the
parser ever decodes contain only data items.) -/
def segmentTokens (file : List FileItem) (s e : Nat) : List ℚ :=
  ((file.drop s).take (e - s)).foldr (fun it acc => itemTokens it ++ acc) []

/-- Split a token list into consecutive chunks of width `w`; `fuel` bounds
the recursion (`tokens.length` always suffices for `w > 0`). -/
def chunksAux : Nat → Nat → List ℚ → List (List ℚ)
  | 0, _, _ => []
  | _ + 1, _, [] => []
  | fuel + 1, w, l => l.take w :: chunksAux fuel w (l.drop w)

/-- Rows of `flat.reshape(-1, w)` for a flat token list. -/
def chunksExact (w : Nat) (l : List ℚ) : List (List ℚ) :=
  chunksAux l.length w l

/-- Model of `flat.reshape(-1, n_cols)` wrapped in the `try/except` of
`_load_timestep_data`: succeeds iff `n_cols` is positive and divides the
token count (numpy's condition for `reshape(-1, n)`), else raises the
re-wrapped `ValueError` carrying the value count and column count. -/
def reshapeTokens (tokens : List ℚ) (w : Nat) : Except PErr (List (List ℚ)) :=
  if 0 < w ∧ tokens.length % w = 0 then .ok (chunksExact w tokens)
  else .error (.reshapeMismatch w tokens.length)

/-- Model of `BaseParser._load_timestep_data(timestep)` (the function wrapped by
`lru_cache`): check membership in `_timestep_atom_info`, slice the mapped
file, parse and reshape. -/
def loadTimestepData (st : ScanState) (file : List FileItem) (t : Int) :
    Except PErr (List (List ℚ)) :=
  match dictGet t st.info with
  | none => .error (.timestepNotFound t)
  | some (s, e) => reshapeTokens (segmentTokens file s e) st.headers.length

/-- Model of `helpers._load_segment(range_args)` as run inside a worker process:
slice the re-opened mapping and parse/reshape.  (The worker does not wrap
the reshape in a `try`, but numpy raises the same `ValueError` condition;
the carried error datum is the same width/count pair.) -/
def loadSegment (file : List FileItem) (args : Nat × Nat × Nat) :
    Except PErr (List (List ℚ)) :=
  reshapeTokens (segmentTokens file args.1 args.2.1) args.2.2

/-- Model of `list(exe.map(f, args))`: results in argument order; the first worker
exception aborts the whole bulk result. -/
def mapExcept (f : α → Except PErr β) : List α → Except PErr (List β)
  | [] => .ok []
  | a :: as =>
    match f a with
    | .error e => .error e
    | .ok b =>
      match mapExcept f as with
      | .error e => .error e
      | .ok bs => .ok (b :: bs)

/-- Model of `BaseParser._load_all_timesteps`: build
`(start, end, len(self._headers))` argument triples from the dict values in
insertion order and decode them all through the worker pool. -/
def loadAllTimesteps (st : ScanState) (file : List FileItem) :
    Except PErr (List (List (List ℚ))) :=
  mapExcept (loadSegment file)
    (st.info.map (fun e => (e.2.1, e.2.2, st.headers.length)))

/-- Python list subscription `l[i]` with an `Int` subscript: negative
subscripts count from the end once; anything still out of `[0, len)` raises
`IndexError`. -/
def pyGet (l : List Int) (i : Int) : Except PErr Int :=
  let j := if i < 0 then i + l.length else i
  if h : 0 ≤ j ∧ j < l.length then .ok (l.get ⟨j.toNat, by omega⟩)
  else .error .indexOutOfRange

/-- Model of `BaseParser._get_timestep_data(timestep_idx)`: shift a negative index by
`len(self._timesteps)` once, subscript `self._timesteps` (Python semantics,
so a still-negative result wraps again), then load that timestep. -/
def getTimestepData (st : ScanState) (file : List FileItem) (i : Int) :
    Except PErr (List (List ℚ)) :=
  let i1 := if i < 0 then (st.timesteps.length : Int) + i else i
  match pyGet st.timesteps i1 with
  | .error e => .error e
  | .ok t => loadTimestepData st file t

/-- Model of `BaseParser.get_data(timestep_idx)` restricted to the `None` and `int`
branches (`None` loads everything, an `int` goes through
`_get_timestep_data`). -/
def getData (st : ScanState) (file : List FileItem) :
    Option Int → Except PErr (Sum (List (List ℚ)) (List (List (List ℚ))))
  | none =>
    match loadAllTimesteps st file with
    | .error e => .error e
    | .ok ts => .ok (.inr ts)
  | some i =>
    match getTimestepData st file i with
    | .error e => .error e
    | .ok t => .ok (.inl t)

/-- Value of one analysis channel in the column map: a single column index
or an ordered list of column indices. -/
inductive ColRef where
  | single (i : Nat) : ColRef
  | multi (is : List Nat) : ColRef
deriving DecidableEq, Repr

/-- Python `dict` lookup on the analysis column map. -/
def alistGet (k : String) : List (String × ColRef) → Option ColRef
  | [] => none
  | e :: rest => if e.1 = k then some e.2 else alistGet k rest

/-- Model of `self._headers.index(h)`: index of the first occurrence of `h`.
Only ever evaluated on present columns (the caller filters first); the
out-of-list value is irrelevant junk standing for Python's `ValueError`. -/
def pyIndexOf (l : List String) (s : String) : Nat :=
  match l with
  | [] => 0
  | x :: xs => if x = s then 0 else pyIndexOf xs s + 1

/-- One scalar entry of `_create_analysis_column_map`'s loop:
`elif header in self._headers: map[analysis_type] = self._headers.index(header)`. -/
def scalarEntry (name col : String) (headers : List String) : List (String × ColRef) :=
  if col ∈ headers then [(name, .single (pyIndexOf headers col))] else []

/-- The six required column names of the multi-column `ptm` channel. -/
def ptmColumns : List String :=
  ["c_ptm[1]", "c_ptm[2]", "c_ptm[3]", "c_ptm[4]", "c_ptm[5]", "c_ptm[6]"]

/-- The multi-column branch of `_create_analysis_column_map`'s loop:
`idxs = [self._headers.index(h) for h in header if h in self._headers]`,
recorded only `if idxs:` (i.e. when nonempty). -/
def multiEntry (name : String) (cols : List String) (headers : List String) :
    List (String × ColRef) :=
  let idxs := (cols.filter (fun c => c ∈ headers)).map (pyIndexOf headers)
  if idxs = [] then [] else [(name, .multi idxs)]

/-- Model of `BaseParser._create_analysis_column_map`: iterate the literal
`analysis_headers` dict in source order, appending each resolved channel.
The conditional-append loop over a literal dict is written as the
concatenation of its nine conditional singleton entries. -/
def createAnalysisColumnMap (headers : List String) : List (String × ColRef) :=
  scalarEntry "centro_symmetric" "c_center_symmetric" headers ++
  (scalarEntry "cna" "c_cna" headers ++
  (scalarEntry "vonmises" "v_atoms_stress" headers ++
  (scalarEntry "velocity_squared" "v_velocity_squared_atom" headers ++
  (scalarEntry "cluster" "c_cluster" headers ++
  (scalarEntry "ke_hotspots" "c_ke_hotspots" headers ++
  (scalarEntry "is_hotspot" "v_is_hotspot" headers ++
  (scalarEntry "coord" "c_coord" headers ++
  multiEntry "ptm" ptmColumns headers)))))))

/-- Model of `z.min()` for a nonempty coordinate list (junk 0 on `[]`, where numba
would fail; all statements assume a nonempty table). -/
def listMin : List ℚ → ℚ
  | [] => 0
  | x :: xs => xs.foldl min x

/-- Model of `z.max()` for a nonempty coordinate list (junk 0 on `[]`). -/
def listMax : List ℚ → ℚ
  | [] => 0
  | x :: xs => xs.foldl max x

/-- Model of `BaseParser._njit_group_indices(z)`: boolean masks
`lower[i] = z[i] <= z_min + 2.5` and `upper[i] = z[i] >= z_max - 2.5`. -/
def njitGroupIndices (z : List ℚ) : List Bool × List Bool :=
  let z_min := listMin z
  let z_max := listMax z
  (z.map (fun v => decide (v ≤ z_min + 2.5)), z.map (fun v => decide (z_max - 2.5 ≤ v)))

/-- Model of `np.where(mask)[0]`: the ascending indices at which the mask is true. -/
def npWhere (mask : List Bool) : List Nat :=
  (List.range mask.length).filter (fun i => mask.getD i false)

/-- The dictionary returned by `BaseParser.get_atom_group_indices`. -/
structure AtomGroups where
  lower_plane : List Nat
  upper_plane : List Nat
  nanoparticle : List Nat
  all : List Nat
deriving DecidableEq, Repr

/-- Body of `BaseParser.get_atom_group_indices` after the z column has been
extracted: masks from `_njit_group_indices`, `nanoparticle = ~(lower | upper)`,
`np.where` on each, and `all = np.arange(data.shape[0])`. -/
def atomGroupsOfZ (z : List ℚ) : AtomGroups :=
  let masks := njitGroupIndices z
  let nano := List.zipWith (fun a b => !(a || b)) masks.1 masks.2
  { lower_plane := npWhere masks.1
    upper_plane := npWhere masks.2
    nanoparticle := npWhere nano
    all := List.range z.length }

/-- Model of `BaseParser.get_atoms_spatial_coordinates(data)` for stored column
indices `(x_idx, y_idx, z_idx)`. -/
def getAtomsSpatialCoordinates (idx : Nat × Nat × Nat) (data : List (List ℚ)) :
    List ℚ × List ℚ × List ℚ :=
  (data.map (fun row => row.getD idx.1 0),
   data.map (fun row => row.getD idx.2.1 0),
   data.map (fun row => row.getD idx.2.2 0))

/-- Model of `BaseParser.get_atom_group_indices(data)`: extract z and classify. -/
def getAtomGroupIndices (idx : Nat × Nat × Nat) (data : List (List ℚ)) : AtomGroups :=
  atomGroupsOfZ (getAtomsSpatialCoordinates idx data).2.2

/-!
## The decode cache

`_load_timestep_data` is wrapped in `functools.lru_cache(maxsize=8)` applied
to the method in the class body, so there is a single class-level cache for
all `BaseParser` instances, keyed by the argument tuple `(self, timestep)`.
We model instances as natural-number identities; `env` maps each instance to
its indexed state and its file.  The cache list is kept most-recent-first.
-/

/-- A cache key: `(self, timestep)`. -/
abbrev CacheKey := Nat × Int

/-- The single class-level `lru_cache` store, most-recent-first. -/
abbrev LruCache := List (CacheKey × List (List ℚ))

/-- Lookup in the lru table. -/
def cacheLookup (c : LruCache) (k : CacheKey) : Option (List (List ℚ)) :=
  match c with
  | [] => none
  | e :: rest => if e.1 = k then some e.2 else cacheLookup rest k

/-- Drop every entry bearing the given key. -/
def cacheRemove (k : CacheKey) : LruCache → LruCache
  | [] => []
  | e :: rest => if e.1 = k then cacheRemove k rest else e :: cacheRemove k rest

/-- Move a hit entry to the most-recent position. -/
def cachePromote (k : CacheKey) (v : List (List ℚ)) (c : LruCache) : LruCache :=
  (k, v) :: cacheRemove k c

/-- One call of the `lru_cache`-wrapped `_load_timestep_data` on instance
`inst`: on a hit return the stored table (refreshing recency); on a miss run
the wrapped function, caching the result only on success (exceptions are not
cached) and evicting beyond the `maxsize=8` capacity. -/
def cachedLoad (env : Nat → ScanState × List FileItem) (inst : Nat)
    (c : LruCache) (t : Int) : Except PErr (List (List ℚ)) × LruCache :=
  match cacheLookup c (inst, t) with
  | some v => (.ok v, cachePromote (inst, t) v c)
  | none =>
    match loadTimestepData (env inst).1 (env inst).2 t with
    | .ok v => (.ok v, (((inst, t), v) :: c).take 8)
    | .error e => (.error e, c)

/-- Model of `BaseParser.clear_data_cache` on any instance:
`self._load_timestep_data.cache_clear()` empties the whole class-level
cache (the `gc.collect()` call has no observable effect here). -/
def clearDataCache (_inst : Nat) (_c : LruCache) : LruCache := []

/-- Every cached table is the result the wrapped function would produce for
its key — the basic consistency invariant of a memoization cache. -/
def CacheOk (env : Nat → ScanState × List FileItem) (c : LruCache) : Prop :=
  ∀ inst t v, cacheLookup c (inst, t) = some v →
    loadTimestepData (env inst).1 (env inst).2 t = .ok v

/-- The index entries, each range chained after the previous one: every
start bounded below by `lo` (resp. the previous end), every range with
`start ≤ end` — the "non-overlapping and monotonically increasing in
file-offset order" invariant. -/
def RangesChained : Nat → List (Int × Nat × Nat) → Prop
  | _, [] => True
  | lo, e :: rest => lo ≤ e.2.1 ∧ e.2.1 ≤ e.2.2 ∧ RangesChained e.2.2 rest

/-- Chained ranges whose final end additionally stays below `hi` — the loop
invariant behind `RangesChained` (the scan offset bounds every range built
so far). -/
def ChainedBelow : Nat → List (Int × Nat × Nat) → Nat → Prop
  | lo, [], hi => lo ≤ hi
  | lo, e :: rest, hi => lo ≤ e.2.1 ∧ e.2.1 ≤ e.2.2 ∧ ChainedBelow e.2.2 rest hi

/-!
## Concrete files used by witnesses and counterexamples

Each one is a small dump file written out in the item model, together with
the scan state that indexing it produces.
-/

/-- A file with one block: timestep 0, one column, one token. -/
def fileA : List FileItem := [.tsMarker (some 0), .atomsMarker ["a"], .dataChunk [1]]

/-- The scan state `indexFile fileA` produces. -/
def stA : ScanState := ⟨[0], [(0, 2, 3)], ["a"]⟩

/-- A file with two well-formed blocks with distinct timestep ids. -/
def fileTwo : List FileItem :=
  [.tsMarker (some 0), .atomsMarker ["a", "b"], .dataChunk [1, 2, 3, 4],
   .tsMarker (some 10), .atomsMarker ["a", "b"], .dataChunk [5, 6]]

/-- The scan state `indexFile fileTwo` produces. -/
def stTwo : ScanState := ⟨[0, 10], [(0, 2, 3), (10, 5, 6)], ["a", "b"]⟩

/-- A file whose two blocks carry the same timestep id 5 with different
data, so the second dict assignment overwrites the first byte range. -/
def fileDup : List FileItem :=
  [.tsMarker (some 5), .atomsMarker ["a"], .dataChunk [1],
   .tsMarker (some 5), .atomsMarker ["a"], .dataChunk [2]]

/-- The scan state `indexFile fileDup` produces: two recorded timesteps but
a single index entry, holding the second block's range. -/
def stDup : ScanState := ⟨[5, 5], [(5, 5, 6)], ["a"]⟩

/-- A file whose second timestep-id line does not parse as an integer. -/
def fileBadId : List FileItem :=
  [.tsMarker (some 0), .atomsMarker ["a"], .dataChunk [1], .tsMarker none]

/-- A file whose second block has a timestep marker but no `ITEM: ATOMS`
marker after it. -/
def fileNoAtoms : List FileItem :=
  [.tsMarker (some 0), .atomsMarker ["a"], .dataChunk [1], .tsMarker (some 1)]

/-- The scan state `indexFile fileNoAtoms` produces: timestep 1 is recorded
in the list but has no entry in the byte-range index. -/
def stNoAtoms : ScanState := ⟨[0, 1], [(0, 2, 3)], ["a"]⟩

/-- An instance environment in which every parser instance is open over
`fileA`. -/
def envA : Nat → ScanState × List FileItem := fun _ => (stA, fileA)

/-- A schema containing only the first of the six `ptm` columns. -/
def hdrsPtmOneCol : List String := ["id", "type", "x", "y", "z", "c_ptm[1]"]

/-- The z column of the spec's concrete grouping scenario. -/
def zScenario : List ℚ := [0, 5, 10]

/-!
## Library lemmas about the model's building blocks
-/

theorem findIdxAux_ge {p : FileItem → Bool} :
    ∀ {l : List FileItem} {k i : Nat}, findIdxAux p l k = some i → k ≤ i := by
  intro l
  induction l with
  | nil => intro k i h; simp [findIdxAux] at h
  | cons x xs ih =>
    intro k i h
    unfold findIdxAux at h
    split at h
    · injection h with h; omega
    · have := ih h; omega

theorem findIdxAux_lt {p : FileItem → Bool} :
    ∀ {l : List FileItem} {k i : Nat}, findIdxAux p l k = some i → i < k + l.length := by
  intro l
  induction l with
  | nil => intro k i h; simp [findIdxAux] at h
  | cons x xs ih =>
    intro k i h
    unfold findIdxAux at h
    split at h
    · injection h with h; simp [List.length_cons]; omega
    · have := ih h; simp [List.length_cons]; omega

theorem findFrom_ge {p : FileItem → Bool} {file : List FileItem} {off i : Nat}
    (h : findFrom p file off = some i) : off ≤ i := by
  unfold findFrom at h
  exact findIdxAux_ge h

theorem findFrom_lt {p : FileItem → Bool} {file : List FileItem} {off i : Nat}
    (h : findFrom p file off = some i) : i < file.length := by
  unfold findFrom at h
  have h1 := findIdxAux_lt h
  rw [List.length_drop] at h1
  by_cases hoff : off ≤ file.length
  · omega
  · rw [List.drop_eq_nil_of_le (by omega)] at h
    simp [findIdxAux] at h

theorem findFrom_none_of_ge {p : FileItem → Bool} {file : List FileItem} {off : Nat}
    (h : file.length ≤ off) : findFrom p file off = none := by
  unfold findFrom
  rw [List.drop_eq_nil_of_le h]
  rfl

theorem mem_infoKeys_dictInsert {k : Int} {v : Nat × Nat} {x : Int} :
    ∀ {l : List (Int × Nat × Nat)},
      x ∈ infoKeys (dictInsert k v l) ↔ x = k ∨ x ∈ infoKeys l := by
  intro l
  induction l with
  | nil => simp [dictInsert, infoKeys]
  | cons e rest ih =>
    unfold dictInsert
    split
    · rename_i he
      simp only [infoKeys, List.map_cons, List.mem_cons] at *
      rw [he]
      tauto
    · simp only [infoKeys, List.map_cons, List.mem_cons] at *
      rw [ih]
      tauto

theorem dictInsert_fresh {k : Int} {v : Nat × Nat} :
    ∀ {l : List (Int × Nat × Nat)}, k ∉ infoKeys l → dictInsert k v l = l ++ [(k, v)] := by
  intro l
  induction l with
  | nil => intro _; rfl
  | cons e rest ih =>
    intro hk
    simp only [infoKeys, List.map_cons, List.mem_cons] at hk
    push_neg at hk
    unfold dictInsert
    rw [if_neg (by exact fun h => hk.1 h.symm), ih (by simpa [infoKeys] using hk.2)]
    rfl

theorem dictGet_mem :
    ∀ (l : List (Int × Nat × Nat)), (infoKeys l).Nodup →
      ∀ e ∈ l, dictGet e.1 l = some e.2 := by
  intro l
  induction l with
  | nil => intro _ e he; simp at he
  | cons x rest ih =>
    intro hnd e he
    simp only [infoKeys, List.map_cons, List.nodup_cons] at hnd
    rcases List.mem_cons.mp he with h | h
    · subst h
      simp [dictGet]
    · have hne : e.1 ≠ x.1 := by
        intro hc
        exact hnd.1 (hc ▸ List.mem_map_of_mem (fun e => e.1) h)
      have hxk : ¬ x.1 = e.1 := fun hh => hne hh.symm
      show (if x.1 = e.1 then some x.2 else dictGet e.1 rest) = some e.2
      rw [if_neg hxk]
      exact ih hnd.2 e h

theorem mapExcept_ok_length {α β : Type} {f : α → Except PErr β} :
    ∀ {as : List α} {bs : List β}, mapExcept f as = .ok bs → bs.length = as.length := by
  intro as
  induction as with
  | nil => intro bs h; unfold mapExcept at h; injection h with h; simp [← h]
  | cons a as ih =>
    intro bs h
    unfold mapExcept at h
    split at h
    · exact absurd h (by simp)
    · split at h
      · exact absurd h (by simp)
      · injection h with h
        rw [← h]
        simp [List.length_cons, ih (by assumption)]

theorem mapExcept_ok_get {α β : Type} {f : α → Except PErr β} (d : β) :
    ∀ {as : List α} {bs : List β}, mapExcept f as = .ok bs →
      ∀ i (hi : i < as.length), f (as.get ⟨i, hi⟩) = .ok (bs.getD i d) := by
  intro as
  induction as with
  | nil => intro bs _ i hi; simp at hi
  | cons a as ih =>
    intro bs h i hi
    unfold mapExcept at h
    split at h
    · exact absurd h (by simp)
    · split at h
      · exact absurd h (by simp)
      · injection h with h
        cases i with
        | zero =>
          rw [← h]
          simpa using (by assumption : f a = .ok _)
        | succ j =>
          have hj : j < as.length := by simp [List.length_cons] at hi; omega
          have hstep : ((a :: as).get ⟨j + 1, hi⟩) = as.get ⟨j, hj⟩ := rfl
          rw [hstep, ← h]
          simpa using ih (by assumption) j hj

theorem chainedBelow_chained :
    ∀ {l : List (Int × Nat × Nat)} {lo hi : Nat}, ChainedBelow lo l hi → RangesChained lo l := by
  intro l
  induction l with
  | nil => intro lo hi _; trivial
  | cons e rest ih =>
    intro lo hi h
    exact ⟨h.1, h.2.1, ih h.2.2⟩

theorem chainedBelow_snoc {k : Int} {s e : Nat} :
    ∀ {l : List (Int × Nat × Nat)} {lo hi : Nat},
      ChainedBelow lo l hi → hi ≤ s → s ≤ e → ChainedBelow lo (l ++ [(k, s, e)]) e := by
  intro l
  induction l with
  | nil =>
    intro lo hi h hs hse
    have h0 : lo ≤ hi := h
    exact ⟨show lo ≤ s by omega, hse, Nat.le_refl e⟩
  | cons x rest ih =>
    intro lo hi h hs hse
    exact ⟨h.1, h.2.1, ih h.2.2 hs hse⟩

/-!
## Scan-loop invariants
-/

/-- Unconditional scan-loop invariants, given that index keys and recorded
timesteps coincide as sets on entry (true of the initial empty state and
re-established after every iteration): the loop only appends to the
timestep list, every index key is a recorded timestep, and every recorded
timestep except possibly the last is an index key. -/
theorem scanLoop_basic (file : List FileItem) :
    ∀ (fuel : Nat) (st : ScanState) (offset : Nat),
      (∀ x, x ∈ infoKeys st.info ↔ x ∈ st.timesteps) →
      (∃ tl, (scanLoop file fuel st offset).timesteps = st.timesteps ++ tl) ∧
      (∀ x ∈ infoKeys (scanLoop file fuel st offset).info,
          x ∈ (scanLoop file fuel st offset).timesteps) ∧
      (∀ x ∈ (scanLoop file fuel st offset).timesteps.dropLast,
          x ∈ infoKeys (scanLoop file fuel st offset).info) := by
  intro fuel
  induction fuel with
  | zero =>
    intro st offset hKT
    exact ⟨⟨[], by simp [scanLoop]⟩,
      fun x hx => (hKT x).mp hx,
      fun x hx => (hKT x).mpr ((List.dropLast_sublist _).subset hx)⟩
  | succ fuel ih =>
    intro st offset hKT
    cases hts : findFrom isTS file offset with
    | none =>
      simp only [scanLoop, hts]
      exact ⟨⟨[], by simp⟩,
        fun x hx => (hKT x).mp hx,
        fun x hx => (hKT x).mpr ((List.dropLast_sublist _).subset hx)⟩
    | some pts =>
      cases hitem : file.getD pts .otherMarker with
      | tsMarker tsid =>
        cases tsid with
        | none =>
          simp only [scanLoop, hts, hitem]
          exact ⟨⟨[], by simp⟩,
            fun x hx => (hKT x).mp hx,
            fun x hx => (hKT x).mpr ((List.dropLast_sublist _).subset hx)⟩
        | some t =>
          cases hpa : findFrom isAtoms file (pts + 1) with
          | none =>
            simp only [scanLoop, hts, hitem, hpa]
            refine ⟨⟨[t], rfl⟩, ?_, ?_⟩
            · intro x hx
              exact List.mem_append_left _ ((hKT x).mp hx)
            · intro x hx
              rw [List.dropLast_concat] at hx
              exact (hKT x).mpr hx
          | some pa =>
            simp only [scanLoop, hts, hitem, hpa]
            set hs2 := if st.headers = [] then itemHeaders (file.getD pa .otherMarker)
              else st.headers with hhs2
            set dataEnd := (findFrom isMarker file (pa + 1)).getD file.length with hde
            have hKT3 : ∀ x,
                x ∈ infoKeys (dictInsert t (pa + 1, dataEnd) st.info) ↔
                  x ∈ st.timesteps ++ [t] := by
              intro x
              rw [mem_infoKeys_dictInsert, List.mem_append, List.mem_singleton, hKT]
              tauto
            obtain ⟨h1, h2, h3⟩ :=
              ih ⟨st.timesteps ++ [t], dictInsert t (pa + 1, dataEnd) st.info, hs2⟩
                dataEnd hKT3
            refine ⟨?_, h2, h3⟩
            obtain ⟨tl, htl⟩ := h1
            exact ⟨[t] ++ tl, by rw [htl, List.append_assoc]⟩
      | atomsMarker hs =>
        simp only [scanLoop, hts, hitem]
        exact ⟨⟨[], by simp⟩,
          fun x hx => (hKT x).mp hx,
          fun x hx => (hKT x).mpr ((List.dropLast_sublist _).subset hx)⟩
      | otherMarker =>
        simp only [scanLoop, hts, hitem]
        exact ⟨⟨[], by simp⟩,
          fun x hx => (hKT x).mp hx,
          fun x hx => (hKT x).mpr ((List.dropLast_sublist _).subset hx)⟩
      | dataChunk tk =>
        simp only [scanLoop, hts, hitem]
        exact ⟨⟨[], by simp⟩,
          fun x hx => (hKT x).mp hx,
          fun x hx => (hKT x).mpr ((List.dropLast_sublist _).subset hx)⟩

/-- Conditional scan-loop invariant: as long as the recorded timestep ids
end up pairwise distinct (so no dict assignment ever overwrites an earlier
entry in place), the byte ranges in the index are chained — non-overlapping
and monotonically increasing in file-offset order. -/
theorem scanLoop_chained (file : List FileItem) :
    ∀ (fuel : Nat) (st : ScanState) (offset : Nat),
      (∀ x, x ∈ infoKeys st.info ↔ x ∈ st.timesteps) →
      ChainedBelow 0 st.info offset →
      (scanLoop file fuel st offset).timesteps.Nodup →
      RangesChained 0 (scanLoop file fuel st offset).info := by
  intro fuel
  induction fuel with
  | zero =>
    intro st offset _ hCB _
    simpa [scanLoop] using chainedBelow_chained hCB
  | succ fuel ih =>
    intro st offset hKT hCB hnd
    cases hts : findFrom isTS file offset with
    | none =>
      simp only [scanLoop, hts]
      exact chainedBelow_chained hCB
    | some pts =>
      cases hitem : file.getD pts .otherMarker with
      | tsMarker tsid =>
        cases tsid with
        | none =>
          simp only [scanLoop, hts, hitem]
          exact chainedBelow_chained hCB
        | some t =>
          cases hpa : findFrom isAtoms file (pts + 1) with
          | none =>
            simp only [scanLoop, hts, hitem, hpa]
            exact chainedBelow_chained hCB
          | some pa =>
            have hpts_ge : offset ≤ pts := findFrom_ge hts
            have hpa_ge : pts + 1 ≤ pa := findFrom_ge hpa
            have hpa_lt : pa < file.length := findFrom_lt hpa
            simp only [scanLoop, hts, hitem, hpa] at hnd ⊢
            have hde_ge : pa + 1 ≤ (findFrom isMarker file (pa + 1)).getD file.length := by
              cases hm : findFrom isMarker file (pa + 1) with
              | none => simpa using hpa_lt
              | some m => simpa using findFrom_ge hm
            have hKT3 : ∀ x,
                x ∈ infoKeys
                  (dictInsert t (pa + 1, (findFrom isMarker file (pa + 1)).getD file.length)
                    st.info) ↔
                  x ∈ st.timesteps ++ [t] := by
              intro x
              rw [mem_infoKeys_dictInsert, List.mem_append, List.mem_singleton, hKT]
              tauto
            obtain ⟨⟨tl, htl⟩, _, _⟩ :=
              scanLoop_basic file fuel
                ⟨st.timesteps ++ [t],
                  dictInsert t (pa + 1, (findFrom isMarker file (pa + 1)).getD file.length)
                    st.info,
                  if st.headers = [] then itemHeaders (file.getD pa .otherMarker)
                  else st.headers⟩
                ((findFrom isMarker file (pa + 1)).getD file.length) hKT3
            have hnd3 : (st.timesteps ++ [t]).Nodup := by
              have hnd2 := hnd
              rw [htl] at hnd2
              exact hnd2.of_append_left
            have hnotin : t ∉ st.timesteps := by
              intro hmem
              obtain ⟨-, -, hdisj⟩ := List.nodup_append.mp hnd3
              exact hdisj hmem (List.mem_singleton_self t)
            have hfresh : t ∉ infoKeys st.info := fun h => hnotin ((hKT t).mp h)
            have hCB3 :
                ChainedBelow 0
                  (dictInsert t (pa + 1, (findFrom isMarker file (pa + 1)).getD file.length)
                    st.info)
                  ((findFrom isMarker file (pa + 1)).getD file.length) := by
              rw [dictInsert_fresh hfresh]
              exact chainedBelow_snoc hCB (by omega) hde_ge
            exact ih _ _ hKT3 hCB3 hnd
      | atomsMarker hs =>
        simp only [scanLoop, hts, hitem]
        exact chainedBelow_chained hCB
      | otherMarker =>
        simp only [scanLoop, hts, hitem]
        exact chainedBelow_chained hCB
      | dataChunk tk =>
        simp only [scanLoop, hts, hitem]
        exact chainedBelow_chained hCB

/-- Fuel adequacy: the scan offset grows by at least one per iteration, so
any fuel of at least `file.length - offset` runs the loop to its Python
termination point — the result does not depend on the fuel.  In particular
the `file.length + 1` used by `indexFile` always suffices. -/
theorem scanLoop_fuel_stable (file : List FileItem) :
    ∀ (fuel fuel2 : Nat) (st : ScanState) (offset : Nat),
      file.length ≤ offset + fuel → file.length ≤ offset + fuel2 →
      scanLoop file fuel st offset = scanLoop file fuel2 st offset := by
  intro fuel
  induction fuel with
  | zero =>
    intro fuel2 st offset h1 h2
    cases fuel2 with
    | zero => rfl
    | succ f2 =>
      simp only [scanLoop,
        findFrom_none_of_ge (p := isTS) (show file.length ≤ offset by omega)]
  | succ f ih =>
    intro fuel2 st offset h1 h2
    cases fuel2 with
    | zero =>
      simp only [scanLoop,
        findFrom_none_of_ge (p := isTS) (show file.length ≤ offset by omega)]
    | succ f2 =>
      cases hts : findFrom isTS file offset with
      | none => simp only [scanLoop, hts]
      | some pts =>
        cases hitem : file.getD pts .otherMarker with
        | tsMarker tsid =>
          cases tsid with
          | none => simp only [scanLoop, hts, hitem]
          | some t =>
            cases hpa : findFrom isAtoms file (pts + 1) with
            | none => simp only [scanLoop, hts, hitem, hpa]
            | some pa =>
              have hpts_ge : offset ≤ pts := findFrom_ge hts
              have hpa_ge : pts + 1 ≤ pa := findFrom_ge hpa
              have hde_ge : pa + 1 ≤ (findFrom isMarker file (pa + 1)).getD file.length := by
                cases hm : findFrom isMarker file (pa + 1) with
                | none => simpa using findFrom_lt hpa
                | some m => simpa using findFrom_ge hm
              simp only [scanLoop, hts, hitem, hpa]
              exact ih f2 _ _ (by omega) (by omega)
        | atomsMarker hs => simp only [scanLoop, hts, hitem]
        | otherMarker => simp only [scanLoop, hts, hitem]
        | dataChunk tk => simp only [scanLoop, hts, hitem]

/-!
## Decoder lemmas
-/

theorem chunksAux_spec {w : Nat} (hw : 0 < w) :
    ∀ (k : Nat) (l : List ℚ) (fuel : Nat), l.length = w * k → l.length ≤ fuel →
      (chunksAux fuel w l).length = k ∧ ∀ r ∈ chunksAux fuel w l, r.length = w := by
  intro k
  induction k with
  | zero =>
    intro l fuel hlen _
    have hl : l = [] := List.eq_nil_of_length_eq_zero (by simpa using hlen)
    subst hl
    cases fuel <;> simp [chunksAux]
  | succ k ih =>
    intro l fuel hlen hfuel
    have hwle : w ≤ l.length := by rw [hlen, Nat.mul_succ]; omega
    cases l with
    | nil => simp at hwle; omega
    | cons x xs =>
      cases fuel with
      | zero => simp [List.length_cons] at hfuel
      | succ f =>
        have hstep : chunksAux (f + 1) w (x :: xs) =
            (x :: xs).take w :: chunksAux f w ((x :: xs).drop w) := rfl
        rw [hstep]
        have hdlen : ((x :: xs).drop w).length = w * k := by
          rw [List.length_drop, hlen, Nat.mul_succ]
          omega
        have hdfuel : ((x :: xs).drop w).length ≤ f := by
          rw [List.length_drop]
          omega
        obtain ⟨ihl, ihr⟩ := ih _ f hdlen hdfuel
        refine ⟨by simp [ihl], ?_⟩
        intro r hr
        rcases List.mem_cons.mp hr with h | h
        · rw [h, List.length_take]
          omega
        · exact ihr r h

/-!
## Grouping lemmas
-/

theorem getD_map_lt (f : ℚ → Bool) :
    ∀ (z : List ℚ) (i : Nat) (hi : i < z.length),
      (z.map f).getD i false = f (z.get ⟨i, hi⟩) := by
  intro z
  induction z with
  | nil => intro i hi; simp at hi
  | cons x xs ih =>
    intro i hi
    cases i with
    | zero => rfl
    | succ j => exact ih j (by simpa using hi)

theorem zipWith_map_same (h : Bool → Bool → Bool) (f g : ℚ → Bool) :
    ∀ (z : List ℚ), List.zipWith h (z.map f) (z.map g) = z.map (fun v => h (f v) (g v)) := by
  intro z
  induction z with
  | nil => rfl
  | cons x xs ih => simp [ih]

theorem mem_npWhere {mask : List Bool} {i : Nat} :
    i ∈ npWhere mask ↔ i < mask.length ∧ mask.getD i false = true := by
  unfold npWhere
  rw [List.mem_filter, List.mem_range]

theorem foldl_min_mem : ∀ (xs : List ℚ) (x : ℚ), xs.foldl min x ∈ x :: xs := by
  intro xs
  induction xs with
  | nil => intro x; simp
  | cons y ys ih =>
    intro x
    simp only [List.foldl_cons]
    rcases List.mem_cons.mp (ih (min x y)) with h | h
    · rcases min_choice x y with hc | hc <;> rw [h, hc] <;> simp
    · simp [h]

theorem foldl_max_mem : ∀ (xs : List ℚ) (x : ℚ), xs.foldl max x ∈ x :: xs := by
  intro xs
  induction xs with
  | nil => intro x; simp
  | cons y ys ih =>
    intro x
    simp only [List.foldl_cons]
    rcases List.mem_cons.mp (ih (max x y)) with h | h
    · rcases max_choice x y with hc | hc <;> rw [h, hc] <;> simp
    · simp [h]

theorem listMin_mem {z : List ℚ} (hz : z ≠ []) : listMin z ∈ z := by
  cases z with
  | nil => exact absurd rfl hz
  | cons x xs => exact foldl_min_mem xs x

theorem listMax_mem {z : List ℚ} (hz : z ≠ []) : listMax z ∈ z := by
  cases z with
  | nil => exact absurd rfl hz
  | cons x xs => exact foldl_max_mem xs x

/-!
## Cache lemmas
-/

theorem cacheLookup_remove_ne {k0 k : CacheKey} (hne : k ≠ k0) :
    ∀ (c : LruCache), cacheLookup (cacheRemove k0 c) k = cacheLookup c k := by
  intro c
  induction c with
  | nil => rfl
  | cons e rest ih =>
    by_cases hp : e.1 = k0
    · have hek : e.1 ≠ k := by rw [hp]; exact fun h => hne h.symm
      simp only [cacheRemove, if_pos hp, cacheLookup, if_neg hek]
      exact ih
    · simp only [cacheRemove, if_neg hp]
      by_cases he : e.1 = k <;> simp only [cacheLookup, if_pos, if_neg, he, ih]

theorem cacheLookup_take :
    ∀ (c : LruCache) (n : Nat) {k : CacheKey} {v}, cacheLookup (c.take n) k = some v →
      cacheLookup c k = some v := by
  intro c
  induction c with
  | nil => intro n k v h; simp [cacheLookup] at h
  | cons e rest ih =>
    intro n k v h
    cases n with
    | zero => simp [cacheLookup] at h
    | succ m =>
      rw [List.take_succ_cons] at h
      by_cases he : e.1 = k
      · simpa [cacheLookup, he] using h
      · simp only [cacheLookup, if_neg he] at h ⊢
        exact ih m h

/-!
## Bulk-loader and accessor lemmas
-/

theorem mapExcept_map {α β γ : Type} (f : β → Except PErr γ) (g : α → β) :
    ∀ (l : List α), mapExcept f (l.map g) = mapExcept (fun a => f (g a)) l := by
  intro l
  induction l with
  | nil => rfl
  | cons a as ih => simp only [List.map_cons, mapExcept, ih]

theorem mapExcept_congr {α β : Type} {f g : α → Except PErr β} :
    ∀ {l : List α}, (∀ a ∈ l, f a = g a) → mapExcept f l = mapExcept g l := by
  intro l
  induction l with
  | nil => intro _; rfl
  | cons a as ih =>
    intro h
    simp only [mapExcept, h a (List.mem_cons_self a as),
      ih (fun x hx => h x (List.mem_cons_of_mem a hx))]

/-- When the index keys are distinct, the bulk loader is the same as
mapping the single-timestep decode over the index keys in order: the two
paths run the identical slice-and-reshape on the identical ranges. -/
theorem loadAllTimesteps_eq_map_single (st : ScanState) (file : List FileItem)
    (hnd : (infoKeys st.info).Nodup) :
    loadAllTimesteps st file =
      mapExcept (loadTimestepData st file) (infoKeys st.info) := by
  unfold loadAllTimesteps
  rw [mapExcept_map, show infoKeys st.info = st.info.map (fun e => e.1) from rfl,
    mapExcept_map]
  exact mapExcept_congr (fun e he => by
    simp only [loadSegment, loadTimestepData, dictGet_mem st.info hnd e he])

theorem pyGet_nat (l : List Int) (i : Nat) (hi : i < l.length) :
    pyGet l (i : Int) = .ok (l.get ⟨i, hi⟩) := by
  have h0 : ¬ ((i : Int) < 0) := by omega
  simp only [pyGet, if_neg h0]
  rw [dif_pos ⟨by omega, by exact_mod_cast hi⟩]
  simp

theorem getTimestepData_nat (st : ScanState) (file : List FileItem) (i : Nat)
    (hi : i < st.timesteps.length) :
    getTimestepData st file (i : Int) =
      loadTimestepData st file (st.timesteps.get ⟨i, hi⟩) := by
  simp only [getTimestepData]
  rw [if_neg (show ¬ (i : Int) < 0 by omega), pyGet_nat st.timesteps i hi]

/-!
## Cached-call specification
-/

/-- One call of the cached loader, started from any consistent cache state,
returns exactly the wrapped function's (successful) result and leaves the
cache consistent — whether it hits, misses, or evicts. -/
theorem cachedLoad_spec (env : Nat → ScanState × List FileItem) (inst : Nat)
    (c : LruCache) (t : Int) (T : List (List ℚ))
    (hc : CacheOk env c)
    (hl : loadTimestepData (env inst).1 (env inst).2 t = .ok T) :
    (cachedLoad env inst c t).1 = .ok T ∧ CacheOk env (cachedLoad env inst c t).2 := by
  cases hx : cacheLookup c (inst, t) with
  | some v =>
    have hv := hc inst t v hx
    have hTv : v = T := by
      have := hv.symm.trans hl
      injection this
    constructor
    · simp only [cachedLoad, hx, hTv]
    · simp only [cachedLoad, hx]
      intro i2 t2 v2 h2
      simp only [cachePromote, cacheLookup] at h2
      split at h2
      · rename_i heq
        have hi : inst = i2 := congrArg Prod.fst heq
        have ht : t = t2 := congrArg Prod.snd heq
        subst hi; subst ht
        injection h2 with h2
        rw [← h2]
        exact hv
      · rename_i hne
        rw [cacheLookup_remove_ne (fun h => hne h.symm)] at h2
        exact hc i2 t2 v2 h2
  | none =>
    constructor
    · simp only [cachedLoad, hx, hl]
    · simp only [cachedLoad, hx, hl]
      intro i2 t2 v2 h2
      have h3 := cacheLookup_take _ 8 h2
      simp only [cacheLookup] at h3
      split at h3
      · rename_i heq
        have hi : inst = i2 := congrArg Prod.fst heq
        have ht : t = t2 := congrArg Prod.snd heq
        subst hi; subst ht
        injection h3 with h3
        rw [← h3]
        exact hl
      · exact hc i2 t2 v2 h3

/-!
## Channel-map lookup lemmas
-/

theorem alistGet_scalar_skip (k name col : String) (headers : List String)
    (rest : List (String × ColRef)) (h : k ≠ name) :
    alistGet k (scalarEntry name col headers ++ rest) = alistGet k rest := by
  have hnk : ¬ (name = k) := fun hh => h hh.symm
  unfold scalarEntry
  split
  · simp [alistGet, hnk]
  · simp

theorem alistGet_scalar_self (name col : String) (headers : List String)
    (rest : List (String × ColRef)) :
    alistGet name (scalarEntry name col headers ++ rest) =
      if col ∈ headers then some (.single (pyIndexOf headers col))
      else alistGet name rest := by
  unfold scalarEntry
  split
  · simp [alistGet]
  · simp

theorem alistGet_multi_skip (k name : String) (cols headers : List String)
    (h : k ≠ name) :
    alistGet k (multiEntry name cols headers) = none := by
  have hnk : ¬ (name = k) := fun hh => h hh.symm
  simp only [multiEntry]
  split
  · rfl
  · simp [alistGet, hnk]

/-!
## Claim theorems
-/

/-- C1, counterexample: a schema containing `c_ptm[1]` but none of the other
five `ptm` columns still gets a `ptm` channel (mapped to the one present
index), so a multi-column channel is NOT included only when all of its
required column names are present. -/
theorem C1_counterexample :
    alistGet "ptm" (createAnalysisColumnMap hdrsPtmOneCol) = some (.multi [5]) ∧
    "c_ptm[1]" ∈ hdrsPtmOneCol ∧ "c_ptm[2]" ∉ hdrsPtmOneCol := by
  refine ⟨by decide, by decide, by decide⟩

/-- C1 (amended): the multi-column `ptm` channel is absent from the map
exactly when none of its six column names occurs in the schema (so it is
included as soon as at least one is present, not only when all are); a
scalar channel such as `cna` is absent exactly when its single column name
is absent. -/
theorem C1_channel_map (headers : List String) :
    (alistGet "ptm" (createAnalysisColumnMap headers) = none ↔
      ∀ c ∈ ptmColumns, c ∉ headers) ∧
    (alistGet "cna" (createAnalysisColumnMap headers) = none ↔
      "c_cna" ∉ headers) := by
  have hiff : ((ptmColumns.filter (fun c => c ∈ headers)).map (pyIndexOf headers) = []) ↔
      ∀ c ∈ ptmColumns, c ∉ headers := by
    rw [List.map_eq_nil_iff, List.filter_eq_nil_iff]
    simp
  constructor
  · unfold createAnalysisColumnMap
    rw [alistGet_scalar_skip _ _ _ _ _ (by decide), alistGet_scalar_skip _ _ _ _ _ (by decide),
      alistGet_scalar_skip _ _ _ _ _ (by decide), alistGet_scalar_skip _ _ _ _ _ (by decide),
      alistGet_scalar_skip _ _ _ _ _ (by decide), alistGet_scalar_skip _ _ _ _ _ (by decide),
      alistGet_scalar_skip _ _ _ _ _ (by decide), alistGet_scalar_skip _ _ _ _ _ (by decide)]
    simp only [multiEntry]
    split
    · rename_i hidx
      simpa [alistGet] using hiff.mp hidx
    · rename_i hidx
      exact ⟨fun hcontra => absurd hcontra (by simp [alistGet]),
        fun hr => absurd (hiff.mpr hr) hidx⟩
  · unfold createAnalysisColumnMap
    rw [alistGet_scalar_skip _ _ _ _ _ (by decide), alistGet_scalar_self]
    have hrest : alistGet "cna"
        (scalarEntry "vonmises" "v_atoms_stress" headers ++
        (scalarEntry "velocity_squared" "v_velocity_squared_atom" headers ++
        (scalarEntry "cluster" "c_cluster" headers ++
        (scalarEntry "ke_hotspots" "c_ke_hotspots" headers ++
        (scalarEntry "is_hotspot" "v_is_hotspot" headers ++
        (scalarEntry "coord" "c_coord" headers ++
        multiEntry "ptm" ptmColumns headers)))))) = none := by
      rw [alistGet_scalar_skip _ _ _ _ _ (by decide), alistGet_scalar_skip _ _ _ _ _ (by decide),
        alistGet_scalar_skip _ _ _ _ _ (by decide), alistGet_scalar_skip _ _ _ _ _ (by decide),
        alistGet_scalar_skip _ _ _ _ _ (by decide), alistGet_scalar_skip _ _ _ _ _ (by decide),
        alistGet_multi_skip _ _ _ _ (by decide)]
    rw [hrest]
    split
    · rename_i hc
      exact ⟨fun hcontra => absurd hcontra (by simp), fun hr => absurd hc hr⟩
    · rename_i hc
      exact ⟨fun _ => hc, fun _ => rfl⟩

/-- C2, counterexample: over a file whose two blocks reuse timestep id 5,
indexing records two timesteps but a single byte range (the second block's,
which overwrote the first), so the bulk loader returns one table for two
recorded timesteps — not one decoded table per timestep. -/
theorem C2_counterexample :
    indexFile fileDup = .ok stDup ∧
    stDup.timesteps.length = 2 ∧
    loadAllTimesteps stDup fileDup = .ok [[[(2 : ℚ)]]] ∧
    getTimestepData stDup fileDup 0 = .ok [[(2 : ℚ)]] :=
  ⟨rfl, rfl, rfl, rfl⟩

/-- C2 (amended): for an indexed file whose recorded timestep ids are
pairwise distinct and whose byte-range index covers every recorded timestep
(keys in index order equal to the timestep list), a successful bulk load
returns one decoded table per timestep in index order, and the i-th bulk
table is exactly the table the single-timestep access path returns for
index i. -/
theorem C2_bulk_lazy_equiv (st : ScanState) (file : List FileItem)
    (hnd : st.timesteps.Nodup) (hk : infoKeys st.info = st.timesteps)
    (l : List (List (List ℚ))) (hb : loadAllTimesteps st file = .ok l) :
    l.length = st.timesteps.length ∧
    ∀ i : Nat, i < st.timesteps.length →
      getTimestepData st file (i : Int) = .ok (l.getD i []) := by
  have hkeysnd : (infoKeys st.info).Nodup := by rw [hk]; exact hnd
  rw [loadAllTimesteps_eq_map_single st file hkeysnd, hk] at hb
  constructor
  · rw [mapExcept_ok_length hb]
  · intro i hi
    rw [getTimestepData_nat st file i hi]
    exact mapExcept_ok_get [] hb i hi

/-- C2, witness: on the two-block file the bulk result has one table per
timestep and matches the single-timestep accesses. -/
theorem C2_witness :
    ([[[(1 : ℚ), 2], [3, 4]], [[5, 6]]] : List (List (List ℚ))).length =
      stTwo.timesteps.length ∧
    ∀ i : Nat, i < stTwo.timesteps.length →
      getTimestepData stTwo fileTwo (i : Int) =
        .ok (([[[(1 : ℚ), 2], [3, 4]], [[5, 6]]] :
          List (List (List ℚ))).getD i []) :=
  C2_bulk_lazy_equiv stTwo fileTwo (by decide) rfl _ rfl

/-- C3, counterexample: on a file whose second timestep-id line does not
parse as an integer, indexing does NOT fail — it returns the partial index
built before the bad line (timestep 0 only). -/
theorem C3_counterexample :
    indexFile fileBadId = .ok ⟨[0], [(0, 2, 3)], ["a"]⟩ := rfl

/-- C3 (amended): when the line following a timestep marker fails to parse
as an integer, the indexing scan stops at that marker and silently returns
the state built so far — no error is raised at that point (indexing can
only fail later with the no-headers error). -/
theorem C3_scan_stops_silently (file : List FileItem) (st : ScanState)
    (offset fuel pts : Nat)
    (h1 : findFrom isTS file offset = some pts)
    (h2 : file.getD pts .otherMarker = .tsMarker none) :
    scanLoop file (fuel + 1) st offset = st := by
  simp only [scanLoop, h1, h2]

/-- C3, witness: the scan over the bad-id file, resumed after its first
good block, stops at the unparseable id line and returns its state
unchanged. -/
theorem C3_witness : scanLoop fileBadId 8 stA 3 = stA :=
  C3_scan_stops_silently fileBadId stA 3 7 3 rfl rfl

/-- C4, counterexample: a trailing block with a timestep marker but no
data-block marker leaves timestep 1 in the recorded list but absent from
the byte-range index, so the recorded-timestep set and the index-key set
differ. -/
theorem C4_counterexample :
    indexFile fileNoAtoms = .ok stNoAtoms ∧
    (1 : Int) ∈ stNoAtoms.timesteps ∧
    (1 : Int) ∉ infoKeys stNoAtoms.info :=
  ⟨rfl, by decide, by decide⟩

/-- C4 (amended): after indexing completes, every index key is a recorded
timestep and every recorded timestep except possibly the last is an index
key (the sets coincide unless the final block lacks a data marker); and
whenever the recorded timestep ids are pairwise distinct (so no dict
assignment overwrites an earlier entry in place), the byte ranges are
non-overlapping and monotonically increasing in file-offset order. -/
theorem C4_index_invariants (file : List FileItem) (st : ScanState)
    (h : indexFile file = .ok st) :
    (∀ x ∈ infoKeys st.info, x ∈ st.timesteps) ∧
    (∀ x ∈ st.timesteps.dropLast, x ∈ infoKeys st.info) ∧
    (st.timesteps.Nodup → RangesChained 0 st.info) := by
  simp only [indexFile] at h
  split at h
  · exact absurd h (by simp)
  · injection h with h
    subst h
    have hKT : ∀ x : Int,
        x ∈ infoKeys (⟨[], [], []⟩ : ScanState).info ↔
          x ∈ (⟨[], [], []⟩ : ScanState).timesteps := by
      simp [infoKeys]
    obtain ⟨-, h2, h3⟩ := scanLoop_basic file (file.length + 1) ⟨[], [], []⟩ 0 hKT
    exact ⟨h2, h3, fun hnd =>
      scanLoop_chained file (file.length + 1) ⟨[], [], []⟩ 0 hKT (Nat.le_refl 0) hnd⟩

/-- C4, witness: the invariants hold on the two-block file, whose distinct
ids give chained ranges. -/
theorem C4_witness :
    (∀ x ∈ infoKeys stTwo.info, x ∈ stTwo.timesteps) ∧
    (∀ x ∈ stTwo.timesteps.dropLast, x ∈ infoKeys stTwo.info) ∧
    RangesChained 0 stTwo.info := by
  obtain ⟨h1, h2, h3⟩ := C4_index_invariants fileTwo stTwo rfl
  exact ⟨h1, h2, h3 (by decide)⟩

/-- C5, counterexample: over a file with a single timestep, index -2 is out
of range, yet the accessor returns the same table as index 0 (the negative
adjustment happens once and Python list indexing wraps a second time)
instead of failing with IndexOutOfRange. -/
theorem C5_counterexample :
    getTimestepData stA fileA (-2) = .ok [[(1 : ℚ)]] ∧
    getTimestepData stA fileA 0 = .ok [[(1 : ℚ)]] :=
  ⟨rfl, rfl⟩

/-- C5 (amended): with n recorded timesteps, a negative index i with
-n ≤ i < 0 behaves as index n+i; an index with i ≥ n or i < -2n fails with
IndexOutOfRange; but an index with -2n ≤ i < -n wraps around a second time
and behaves as index 2n+i instead of failing. -/
theorem C5_index_semantics (st : ScanState) (file : List FileItem) (i : Int) :
    (-(st.timesteps.length : Int) ≤ i → i < 0 →
      getTimestepData st file i =
        getTimestepData st file (i + st.timesteps.length)) ∧
    ((st.timesteps.length : Int) ≤ i ∨ i < -(2 * (st.timesteps.length : Int)) →
      getTimestepData st file i = .error .indexOutOfRange) ∧
    (-(2 * (st.timesteps.length : Int)) ≤ i → i < -(st.timesteps.length : Int) →
      getTimestepData st file i =
        getTimestepData st file (i + 2 * st.timesteps.length)) := by
  refine ⟨?_, ?_, ?_⟩
  · intro h1 h2
    rw [Int.add_comm i ((st.timesteps.length : Int))]
    unfold getTimestepData
    rw [if_pos h2, if_neg (show ¬ ((st.timesteps.length : Int) + i < 0) by omega)]
  · intro hcase
    rcases hcase with hA | hB
    · have hni : ¬ (i < 0) := by omega
      simp only [getTimestepData, pyGet, if_neg hni]
      rw [dif_neg (show ¬ ((0:Int) ≤ i ∧ i < st.timesteps.length) by omega)]
    · have hi0 : i < 0 := by omega
      have hj : (st.timesteps.length : Int) + i < 0 := by omega
      simp only [getTimestepData, pyGet, if_pos hi0, if_pos hj]
      rw [dif_neg (show ¬ ((0:Int) ≤ (st.timesteps.length : Int) + i + st.timesteps.length ∧
        (st.timesteps.length : Int) + i + st.timesteps.length < st.timesteps.length)
        by omega)]
  · intro h1 h2
    have hrw : i + 2 * (st.timesteps.length : Int) =
        (st.timesteps.length : Int) + i + st.timesteps.length := by ring
    rw [hrw]
    have hi0 : i < 0 := by omega
    have hbig : ¬ ((st.timesteps.length : Int) + i + st.timesteps.length < 0) := by omega
    have hneg : (st.timesteps.length : Int) + i < 0 := by omega
    simp only [getTimestepData, pyGet, if_pos hi0, if_neg hbig, if_pos hneg]

/-- C5, witness: with one timestep, get(-1) equals get(0) and get(3) fails
with IndexOutOfRange. -/
theorem C5_witness :
    getTimestepData stA fileA (-1) =
      getTimestepData stA fileA (-1 + stA.timesteps.length) ∧
    getTimestepData stA fileA 3 = .error .indexOutOfRange :=
  ⟨(C5_index_semantics stA fileA (-1)).1 (by decide) (by decide),
   (C5_index_semantics stA fileA 3).2.1 (Or.inl (by decide))⟩

/-- C6 (confirmed): decoding a byte range parses its tokens and, for a
positive schema width, succeeds exactly when the width divides the token
count, producing a table of token_count / width rows each of the schema
width; otherwise it fails with the reshape-mismatch error carrying the
width and the token count. -/
theorem C6_reshape (file : List FileItem) (s e w : Nat) (hw : 0 < w) :
    ((segmentTokens file s e).length % w = 0 →
      reshapeTokens (segmentTokens file s e) w =
        .ok (chunksExact w (segmentTokens file s e)) ∧
      (chunksExact w (segmentTokens file s e)).length =
        (segmentTokens file s e).length / w ∧
      ∀ r ∈ chunksExact w (segmentTokens file s e), r.length = w) ∧
    ((segmentTokens file s e).length % w ≠ 0 →
      reshapeTokens (segmentTokens file s e) w =
        .error (.reshapeMismatch w (segmentTokens file s e).length)) := by
  generalize segmentTokens file s e = tokens
  refine ⟨fun hmod => ?_, fun hmod => ?_⟩
  · have hdm := Nat.div_add_mod tokens.length w
    have hlen : tokens.length = w * (tokens.length / w) := by omega
    obtain ⟨h1, h2⟩ :=
      chunksAux_spec hw (tokens.length / w) tokens tokens.length hlen (Nat.le_refl _)
    exact ⟨by unfold reshapeTokens; rw [if_pos ⟨hw, hmod⟩], h1, h2⟩
  · unfold reshapeTokens
    rw [if_neg (fun hcon => hmod hcon.2)]

/-- C6, witness: the first range of the two-block file (four tokens) at
width 2 decodes to two rows of width 2, and at width 3 the failure
condition is vacuous. -/
theorem C6_witness :
    (((segmentTokens fileTwo 2 3).length % 2 = 0 →
      reshapeTokens (segmentTokens fileTwo 2 3) 2 =
        .ok (chunksExact 2 (segmentTokens fileTwo 2 3)) ∧
      (chunksExact 2 (segmentTokens fileTwo 2 3)).length =
        (segmentTokens fileTwo 2 3).length / 2 ∧
      ∀ r ∈ chunksExact 2 (segmentTokens fileTwo 2 3), r.length = 2) ∧
    ((segmentTokens fileTwo 2 3).length % 2 ≠ 0 →
      reshapeTokens (segmentTokens fileTwo 2 3) 2 =
        .error (.reshapeMismatch 2 (segmentTokens fileTwo 2 3).length))) :=
  C6_reshape fileTwo 2 3 2 (by decide)

/-- C7 (confirmed): for every nonempty decoded z column, the lower plane is
exactly the rows with z at most z_min + 2.5, the upper plane exactly the
rows with z at least z_max - 2.5, the nanoparticle group exactly the
complement of their union, and the three groups together cover exactly the
set of all row indices. -/
theorem C7_grouping (z : List ℚ) (_hz : z ≠ []) :
    (∀ (i : Nat) (hi : i < z.length),
      (i ∈ (atomGroupsOfZ z).lower_plane ↔ z.get ⟨i, hi⟩ ≤ listMin z + 2.5) ∧
      (i ∈ (atomGroupsOfZ z).upper_plane ↔ listMax z - 2.5 ≤ z.get ⟨i, hi⟩) ∧
      (i ∈ (atomGroupsOfZ z).nanoparticle ↔
        (i ∉ (atomGroupsOfZ z).lower_plane ∧ i ∉ (atomGroupsOfZ z).upper_plane))) ∧
    (∀ i : Nat, i ∈ (atomGroupsOfZ z).all ↔ i < z.length) ∧
    (∀ i : Nat, i ∈ (atomGroupsOfZ z).all ↔
      (i ∈ (atomGroupsOfZ z).lower_plane ∨ i ∈ (atomGroupsOfZ z).upper_plane ∨
        i ∈ (atomGroupsOfZ z).nanoparticle)) := by
  have hlowmask : ∀ (i : Nat) (hi : i < z.length),
      (i ∈ (atomGroupsOfZ z).lower_plane ↔ z.get ⟨i, hi⟩ ≤ listMin z + 2.5) := by
    intro i hi
    show i ∈ npWhere (z.map fun v => decide (v ≤ listMin z + 2.5)) ↔ _
    rw [mem_npWhere, List.length_map, getD_map_lt _ z i hi]
    simp [hi]
  have hupmask : ∀ (i : Nat) (hi : i < z.length),
      (i ∈ (atomGroupsOfZ z).upper_plane ↔ listMax z - 2.5 ≤ z.get ⟨i, hi⟩) := by
    intro i hi
    show i ∈ npWhere (z.map fun v => decide (listMax z - 2.5 ≤ v)) ↔ _
    rw [mem_npWhere, List.length_map, getD_map_lt _ z i hi]
    simp [hi]
  have hnanomask : ∀ (i : Nat) (hi : i < z.length),
      (i ∈ (atomGroupsOfZ z).nanoparticle ↔
        ¬ (z.get ⟨i, hi⟩ ≤ listMin z + 2.5) ∧
        ¬ (listMax z - 2.5 ≤ z.get ⟨i, hi⟩)) := by
    intro i hi
    show i ∈ npWhere (List.zipWith (fun a b => !(a || b))
      (z.map fun v => decide (v ≤ listMin z + 2.5))
      (z.map fun v => decide (listMax z - 2.5 ≤ v))) ↔ _
    rw [zipWith_map_same, mem_npWhere, List.length_map, getD_map_lt _ z i hi]
    simp [hi]
  have hlow_lt : ∀ i : Nat, i ∈ (atomGroupsOfZ z).lower_plane → i < z.length := by
    intro i h
    have h2 := (mem_npWhere.mp
      (show i ∈ npWhere (z.map fun v => decide (v ≤ listMin z + 2.5)) from h)).1
    simpa using h2
  have hup_lt : ∀ i : Nat, i ∈ (atomGroupsOfZ z).upper_plane → i < z.length := by
    intro i h
    have h2 := (mem_npWhere.mp
      (show i ∈ npWhere (z.map fun v => decide (listMax z - 2.5 ≤ v)) from h)).1
    simpa using h2
  have hnano_lt : ∀ i : Nat, i ∈ (atomGroupsOfZ z).nanoparticle → i < z.length := by
    intro i h
    have h2 := (mem_npWhere.mp
      (show i ∈ npWhere (List.zipWith (fun a b => !(a || b))
        (z.map fun v => decide (v ≤ listMin z + 2.5))
        (z.map fun v => decide (listMax z - 2.5 ≤ v))) from h)).1
    simp [List.length_zipWith] at h2
    exact h2
  refine ⟨fun i hi => ⟨hlowmask i hi, hupmask i hi, ?_⟩, fun i => List.mem_range, fun i => ?_⟩
  · rw [hnanomask i hi]
    constructor
    · rintro ⟨ha, hb⟩
      exact ⟨fun hl => ha ((hlowmask i hi).mp hl), fun hu => hb ((hupmask i hi).mp hu)⟩
    · rintro ⟨ha, hb⟩
      exact ⟨fun hp => ha ((hlowmask i hi).mpr hp), fun hq => hb ((hupmask i hi).mpr hq)⟩
  · constructor
    · intro hall
      have hi : i < z.length := List.mem_range.mp hall
      by_cases hl : z.get ⟨i, hi⟩ ≤ listMin z + 2.5
      · exact Or.inl ((hlowmask i hi).mpr hl)
      · by_cases hu : listMax z - 2.5 ≤ z.get ⟨i, hi⟩
        · exact Or.inr (Or.inl ((hupmask i hi).mpr hu))
        · exact Or.inr (Or.inr ((hnanomask i hi).mpr ⟨hl, hu⟩))
    · intro hmem
      show i ∈ List.range z.length
      rw [List.mem_range]
      rcases hmem with h | h | h
      · exact hlow_lt i h
      · exact hup_lt i h
      · exact hnano_lt i h

/-- C7, witness: the spec's concrete scenario z = [0, 5, 10] with margin
2.5 satisfies all the grouping invariants. -/
theorem C7_witness :
    (∀ (i : Nat) (hi : i < zScenario.length),
      (i ∈ (atomGroupsOfZ zScenario).lower_plane ↔
        zScenario.get ⟨i, hi⟩ ≤ listMin zScenario + 2.5) ∧
      (i ∈ (atomGroupsOfZ zScenario).upper_plane ↔
        listMax zScenario - 2.5 ≤ zScenario.get ⟨i, hi⟩) ∧
      (i ∈ (atomGroupsOfZ zScenario).nanoparticle ↔
        (i ∉ (atomGroupsOfZ zScenario).lower_plane ∧
          i ∉ (atomGroupsOfZ zScenario).upper_plane))) ∧
    (∀ i : Nat, i ∈ (atomGroupsOfZ zScenario).all ↔ i < zScenario.length) ∧
    (∀ i : Nat, i ∈ (atomGroupsOfZ zScenario).all ↔
      (i ∈ (atomGroupsOfZ zScenario).lower_plane ∨
        i ∈ (atomGroupsOfZ zScenario).upper_plane ∨
        i ∈ (atomGroupsOfZ zScenario).nanoparticle)) :=
  C7_grouping zScenario (by decide)

/-- C8 (confirmed): for a timestep whose decode succeeds, the cached
loader, started from any consistent cache, returns that table; an
immediately repeated call (now served from cache) returns the same table;
and a call after clearing the cache re-decodes and still returns the same
table, so re-requesting an evicted or cleared timestep never fails. -/
theorem C8_cache_transparent (env : Nat → ScanState × List FileItem) (inst : Nat)
    (c : LruCache) (t : Int) (T : List (List ℚ))
    (hc : CacheOk env c)
    (hl : loadTimestepData (env inst).1 (env inst).2 t = .ok T) :
    (cachedLoad env inst c t).1 = .ok T ∧
    (cachedLoad env inst (cachedLoad env inst c t).2 t).1 = .ok T ∧
    (cachedLoad env inst (clearDataCache inst (cachedLoad env inst c t).2) t).1 = .ok T := by
  obtain ⟨h1, h2⟩ := cachedLoad_spec env inst c t T hc hl
  obtain ⟨h3, -⟩ := cachedLoad_spec env inst _ t T h2 hl
  have hempty : CacheOk env (clearDataCache inst (cachedLoad env inst c t).2) := by
    intro i2 t2 v2 hlk
    simp [clearDataCache, cacheLookup] at hlk
  obtain ⟨h4, -⟩ := cachedLoad_spec env inst _ t T hempty hl
  exact ⟨h1, h3, h4⟩

/-- C8, witness: loading timestep 0 of the one-block file twice, and again
after a clear, returns the decoded table each time. -/
theorem C8_witness :
    (cachedLoad envA 0 [] 0).1 = .ok [[(1 : ℚ)]] ∧
    (cachedLoad envA 0 (cachedLoad envA 0 [] 0).2 0).1 = .ok [[(1 : ℚ)]] ∧
    (cachedLoad envA 0 (clearDataCache 0 (cachedLoad envA 0 [] 0).2) 0).1 =
      .ok [[(1 : ℚ)]] :=
  C8_cache_transparent envA 0 [] 0 [[(1 : ℚ)]]
    (by intro i t v h; simp [cacheLookup] at h) rfl

/-- C9, counterexample: instance 2 caches its table for timestep 0, then
instance 1 calls clear: instance 2's cached entry is gone, because the
`lru_cache` wrapping the loader lives on the class, not the instance, and
`cache_clear` empties it for everyone. -/
theorem C9_counterexample :
    cacheLookup (cachedLoad envA 2 [] 0).2 (2, 0) = some [[(1 : ℚ)]] ∧
    clearDataCache 1 (cachedLoad envA 2 [] 0).2 = [] ∧
    cacheLookup (clearDataCache 1 (cachedLoad envA 2 [] 0).2) (2, 0) = none :=
  ⟨rfl, rfl, rfl⟩

/-- C9 (amended): the decode cache is a single class-level store shared by
all parser instances (keyed by instance and timestep); clear_cache invoked
on any instance empties it entirely, removing every instance's entries, and
a subsequent access by any instance re-decodes successfully. -/
theorem C9_shared_cache (env : Nat → ScanState × List FileItem)
    (inst inst2 : Nat) (c : LruCache) (t : Int) (T : List (List ℚ))
    (hl : loadTimestepData (env inst).1 (env inst).2 t = .ok T) :
    (∀ k : CacheKey, cacheLookup (clearDataCache inst2 c) k = none) ∧
    (cachedLoad env inst (clearDataCache inst2 c) t).1 = .ok T := by
  refine ⟨fun k => rfl, ?_⟩
  have hok : CacheOk env (clearDataCache inst2 c) := by
    intro i2 t2 v2 h2
    simp [clearDataCache, cacheLookup] at h2
  exact (cachedLoad_spec env inst _ t T hok hl).1

/-- C9, witness: clearing through instance 1 empties a cache holding an
entry of instance 2, and instance 2's next access re-decodes. -/
theorem C9_witness :
    (∀ k : CacheKey,
      cacheLookup (clearDataCache 1 [((2, 0), [[(1 : ℚ)]])]) k = none) ∧
    (cachedLoad envA 2 (clearDataCache 1 [((2, 0), [[(1 : ℚ)]])]) 0).1 =
      .ok [[(1 : ℚ)]] :=
  C9_shared_cache envA 2 1 [((2, 0), [[(1 : ℚ)]])] 0 [[(1 : ℚ)]] rfl

/-- C10 (confirmed): for every nonempty z column, the row attaining the
minimum satisfies the lower-plane threshold and the row attaining the
maximum satisfies the upper-plane threshold, so the lower and upper plane
groups are always nonempty (only the nanoparticle group can be empty). -/
theorem C10_extremes_nonempty (z : List ℚ) (hz : z ≠ []) :
    (atomGroupsOfZ z).lower_plane ≠ [] ∧ (atomGroupsOfZ z).upper_plane ≠ [] := by
  constructor
  · obtain ⟨n, hn⟩ := List.mem_iff_get.mp (listMin_mem hz)
    apply List.ne_nil_of_mem (a := n.val)
    show n.val ∈ npWhere (z.map fun v => decide (v ≤ listMin z + 2.5))
    rw [mem_npWhere, List.length_map, getD_map_lt _ z n.val n.isLt]
    refine ⟨n.isLt, ?_⟩
    simp only [Fin.eta, hn, decide_eq_true_eq]
    linarith
  · obtain ⟨n, hn⟩ := List.mem_iff_get.mp (listMax_mem hz)
    apply List.ne_nil_of_mem (a := n.val)
    show n.val ∈ npWhere (z.map fun v => decide (listMax z - 2.5 ≤ v))
    rw [mem_npWhere, List.length_map, getD_map_lt _ z n.val n.isLt]
    refine ⟨n.isLt, ?_⟩
    simp only [Fin.eta, hn, decide_eq_true_eq]
    linarith

/-- C10, witness: on z = [0, 5, 10] both plane groups are nonempty. -/
theorem C10_witness :
    (atomGroupsOfZ zScenario).lower_plane ≠ [] ∧
    (atomGroupsOfZ zScenario).upper_plane ≠ [] :=
  C10_extremes_nonempty zScenario (by decide)

end Trybo
